import Mathlib

/-!
Verification development for the gitime utility (src/gitime.go).

The program is a single linear pipeline: it runs the external command
git log to enumerate commit hashes (newest first), then for each hash
runs git show to obtain the author date (first output line) and the
changed file paths (remaining output lines), and finally sets each
existing file on disk to that date via os.Chtimes.

The embedding below translates the active code path (main, logWalk,
getCommits, getCommitFiles) into pure Lean functions.  The external
world is a parameter: a GitEnv records the combined output (or failure)
of each subprocess invocation, and the file system is a map from
absolute path to its access and modification times.  The external
library function time.Parse with the fixed layout
Mon Jan 2 15:04:05 2006 -0700 is likewise a parameter of type
String to Option Time, since its source is not part of this repository.
-/

/-- Timestamps are opaque instants; we model them as integers
(for example seconds since the epoch).  The program never computes
with a timestamp, it only copies one onto a file. -/
abbrev Time := Int

/-- The pair of file times that os.Chtimes sets: last access time and
last modification time. -/
structure FileTimes where
  atime : Time
  mtime : Time
  deriving DecidableEq, Repr

/-- The file system, restricted to what the program observes and
mutates: for each absolute path, whether a file exists there and, if
so, its times.  os.Stat is the isSome test and os.Chtimes the update. -/
abbrev FS := String → Option FileTimes

/-- Embedding of os.Chtimes p ta tm: set the access and modification
times of an existing file; a path with no file is left absent.  In the
source this call is only reached after the existence check, and
environmental write failures (permissions) are outside the model since
no claim depends on them. -/
def chtimes (fs : FS) (p : String) (ta tm : Time) : FS :=
  fun q => if q = p then Option.map (fun _ => FileTimes.mk ta tm) (fs q) else fs q

/-- The newline character, the separator of both strings.Split call
sites in the source. -/
def newline : Char := Char.ofNat 10

/-- Embedding of Go strings.Split with separator newline, on the
character list of the string: splitting the empty text yields one empty
field, and every separator occurrence opens a new field, so a trailing
newline yields a trailing empty field. -/
def splitCharsNl : List Char → List (List Char)
  | [] => [[]]
  | c :: cs =>
    if c = newline then [] :: splitCharsNl cs
    else
      match splitCharsNl cs with
      | [] => [[c]]
      | l :: ls => (c :: l) :: ls

/-- Embedding of strings.Split s with separator the newline string, as
used by getCommits (line 85 of the source) and getCommitFiles
(line 98). -/
def splitNl (s : String) : List String :=
  List.map (fun cs => String.mk cs) (splitCharsNl s.data)

/-- Embedding of path.Join gitDir f as used on line 59 of the source
with an absolute directory and a relative file path.  The Clean
normalisation that path.Join also performs is elided: no claim
distinguishes a path from its cleaned form, and the embedding treats
paths as opaque keys of the file system map. -/
def pathJoin (dir f : String) : String := dir ++ "/" ++ f

/-- The external world of one run: the combined output (or the combined
output carried by a failure) of the git log invocation, and of the
git show invocation for each hash the program may pass to it. -/
structure GitEnv where
  logResult : Except String String
  showResult : String → Except String String

/-- Embedding of getCommits (source lines 76 to 87): run
git log with the hash-only format and split its combined output on
newlines; a failing command surfaces its combined output as the error
value. -/
def getCommits (env : GitEnv) : Except String (List String) :=
  match env.logResult with
  | Except.error out => Except.error out
  | Except.ok out => Except.ok (splitNl out)

/-- The triple returned by getCommitFiles, mirroring the Go multiple
return values date, files, err.  When the date line fails to parse the
Go function has already assigned err yet still runs the collection
loop, so files can be nonempty alongside a parse error; the date field
then holds the Go zero value, modelled as 0. -/
structure CommitFilesResult where
  date : Time
  files : List String
  err : Option String
  deriving Repr

/-- Embedding of the collection loop of getCommitFiles (source lines
105 to 110): walk the lines after the first in order, skip empty lines,
and append every other line verbatim. -/
def collectFiles : List String → List String
  | [] => []
  | l :: ls => if l = "" then collectFiles ls else l :: collectFiles ls

/-- Embedding of getCommitFiles (source lines 90 to 113): run git show
on the hash with name-only output and the author-date format, split the
combined output on newlines, parse the first line with the fixed layout
(the parseDate parameter stands for time.Parse with layout
Mon Jan 2 15:04:05 2006 -0700, an external library function), and
collect the remaining nonempty lines verbatim.  A failing command
surfaces its combined output; a parse failure surfaces the fixed
message with the offending line, and the file collection still runs. -/
def getCommitFiles (parseDate : String → Option Time) (env : GitEnv) (hash : String) :
    CommitFilesResult :=
  match env.showResult hash with
  | Except.error out => CommitFilesResult.mk 0 [] (Option.some out)
  | Except.ok out =>
    let lines := splitNl out
    let first := List.headD lines ""
    match parseDate first with
    | Option.some d =>
      CommitFilesResult.mk d (collectFiles (List.drop 1 lines)) Option.none
    | Option.none =>
      CommitFilesResult.mk 0 (collectFiles (List.drop 1 lines))
        (Option.some ("Could not understand this time stamp: " ++ first))

/-- The mutable state threaded through logWalk: the file system, the
log of timestamp writes actually performed (path and time, in order),
and the progress lines printed to standard output (time and raw file
path, in order). -/
structure RunState where
  fs : FS
  writes : List (String × Time)
  progress : List (Time × String)

/-- Embedding of the body of the inner file loop of logWalk (source
lines 56 to 71): print the progress line first, then join the path,
then check existence; a missing file is skipped with a warning, an
existing file gets both of its times set to the commit date. -/
def processFile (gitDir : String) (mtime : Time) (st : RunState) (f : String) : RunState :=
  let pr := st.progress ++ [(mtime, f)]
  let fpath := pathJoin gitDir f
  if (st.fs fpath).isSome then
    RunState.mk (chtimes st.fs fpath mtime mtime) (st.writes ++ [(fpath, mtime)]) pr
  else
    RunState.mk st.fs st.writes pr

/-- Embedding of one iteration of the outer commit loop of logWalk
(source lines 45 to 72): an empty hash is skipped, an error from
getCommitFiles aborts the run before the file loop (the error value
carries the state unchanged), and otherwise every listed file is
processed in order. -/
def processCommit (parseDate : String → Option Time) (env : GitEnv) (gitDir : String)
    (st : RunState) (hash : String) : Except RunState RunState :=
  if hash = "" then Except.ok st
  else
    let r := getCommitFiles parseDate env hash
    match r.err with
    | Option.some _ => Except.error st
    | Option.none => Except.ok (List.foldl (processFile gitDir r.date) st r.files)

/-- The commit loop of logWalk over a list of hashes: process each in
order, stopping with exit code 1 at the first failing commit, and
returning exit code 0 after the last one. -/
def runCommits (parseDate : String → Option Time) (env : GitEnv) (gitDir : String) :
    List String → RunState → RunState × Nat
  | [], st => (st, 0)
  | h :: hs, st =>
    match processCommit parseDate env gitDir st h with
    | Except.error st2 => (st2, 1)
    | Except.ok st2 => runCommits parseDate env gitDir hs st2

/-- The observable outcome of a whole run: final file system, process
exit code, the write log and the progress lines. -/
structure RunResult where
  fs : FS
  exitCode : Nat
  writes : List (String × Time)
  progress : List (Time × String)

/-- Embedding of logWalk (source lines 36 to 73) together with the
exit-status behaviour of main: a failing commit enumeration exits 1
having touched nothing, and otherwise the commit loop runs from the
initial file system with empty logs. -/
def logWalk (parseDate : String → Option Time) (env : GitEnv) (gitDir : String)
    (fs0 : FS) : RunResult :=
  match getCommits env with
  | Except.error _ => RunResult.mk fs0 1 [] []
  | Except.ok hashes =>
    let p := runCommits parseDate env gitDir hashes (RunState.mk fs0 [] [])
    RunResult.mk p.1.fs p.2 p.1.writes p.1.progress

/-- The absolute paths a commit record lists, after joining onto the
working directory as the driver does. -/
def commitPaths (parseDate : String → Option Time) (env : GitEnv) (gitDir : String)
    (h : String) : List String :=
  List.map (pathJoin gitDir) (getCommitFiles parseDate env h).files

/-- The commit dates that would be written onto path q by a run over
the given hashes, in processing order: empty hashes are skipped, a
failing commit ends the run, and a successful commit contributes its
date exactly when q is among its joined paths. -/
def writesFor (parseDate : String → Option Time) (env : GitEnv) (gitDir : String)
    (q : String) : List String → List Time
  | [] => []
  | h :: hs =>
    if h = "" then writesFor parseDate env gitDir q hs
    else
      let r := getCommitFiles parseDate env h
      match r.err with
      | Option.some _ => []
      | Option.none =>
        (if q ∈ List.map (pathJoin gitDir) r.files then [r.date] else []) ++
          writesFor parseDate env gitDir q hs

/-- The dates, in enumeration order, of the nonempty hashes whose
commit records list path q among their joined changed paths.  This is
the notion the specification invariant speaks about. -/
def relevantTimes (parseDate : String → Option Time) (env : GitEnv) (gitDir : String)
    (q : String) (hashes : List String) : List Time :=
  List.map (fun h => (getCommitFiles parseDate env h).date)
    (List.filter (fun h => decide (h ≠ "" ∧ q ∈ commitPaths parseDate env gitDir h)) hashes)

/-- The progress lines a run over the given hashes prints: one line per
listed file of every successfully retrieved commit, in order, with
nothing for a failing commit or after it.  Note this does not depend on
the file system at all. -/
def progressOf (parseDate : String → Option Time) (env : GitEnv) :
    List String → List (Time × String)
  | [] => []
  | h :: hs =>
    if h = "" then progressOf parseDate env hs
    else
      let r := getCommitFiles parseDate env h
      match r.err with
      | Option.some _ => []
      | Option.none =>
        List.map (fun f => (r.date, f)) r.files ++ progressOf parseDate env hs

/-- A concrete stand-in for the external layout parser time.Parse with
layout Mon Jan 2 15:04:05 2006 -0700, used by the concrete scenarios
below: it accepts exactly two well-formed date strings, mapping them to
their epoch seconds, and rejects every other line. -/
def demoParse : String → Option Time := fun s =>
  if s = "Sun Jan 1 10:00:00 2023 +0000" then Option.some 1672567200
  else if s = "Wed Feb 1 12:00:00 2023 +0000" then Option.some 1675252800
  else Option.none

/-- The two-commit scenario of the specification, seen through git
output: commit a (Sun Jan 1 10:00:00 2023, the earlier) adds x.txt and
commit b (Wed Feb 1 12:00:00 2023, the later) modifies x.txt and adds
y.txt; git log emits newest first, so b comes before a. -/
def envTwoCommits : GitEnv :=
  GitEnv.mk (Except.ok "b\na\n")
    (fun h =>
      if h = "b" then Except.ok "Wed Feb 1 12:00:00 2023 +0000\n\nx.txt\ny.txt\n"
      else Except.ok "Sun Jan 1 10:00:00 2023 +0000\n\nx.txt\n")

/-- A working tree under /repo holding both files of the two-commit
scenario, stamped with the checkout time 0. -/
def fsBoth : FS := fun p =>
  if p = "/repo/x.txt" then Option.some (FileTimes.mk 0 0)
  else if p = "/repo/y.txt" then Option.some (FileTimes.mk 0 0)
  else Option.none

/-- The same history as envTwoCommits for the last-write-wins witness:
commits b and a both list x.txt. -/
def envLastWrite : GitEnv :=
  GitEnv.mk (Except.ok "b\na\n")
    (fun h =>
      if h = "b" then Except.ok "Wed Feb 1 12:00:00 2023 +0000\n\nx.txt\n"
      else Except.ok "Sun Jan 1 10:00:00 2023 +0000\n\nx.txt\n")

/-- A working tree holding only x.txt. -/
def fsOnlyX : FS := fun p =>
  if p = "/repo/x.txt" then Option.some (FileTimes.mk 0 0) else Option.none

/-- A history whose middle commit b has an unparseable date line:
commit g is good, b is bad, a would be good but is never reached. -/
def envBadMiddle : GitEnv :=
  GitEnv.mk (Except.ok "g\nb\na\n")
    (fun h =>
      if h = "g" then Except.ok "Sun Jan 1 10:00:00 2023 +0000\n\nx.txt\n"
      else if h = "b" then Except.ok "garbage\nz.txt\n"
      else Except.ok "Wed Feb 1 12:00:00 2023 +0000\n\na.txt\n")

/-- A working tree holding every file the envBadMiddle history
mentions, so that only the aborting commit can prevent a write. -/
def fsThree : FS := fun p =>
  if p = "/repo/x.txt" then Option.some (FileTimes.mk 0 0)
  else if p = "/repo/z.txt" then Option.some (FileTimes.mk 0 0)
  else if p = "/repo/a.txt" then Option.some (FileTimes.mk 0 0)
  else Option.none

/-- The two-commit scenario working tree with y.txt deleted before the
run. -/
def fsMissingY : FS := fun p =>
  if p = "/repo/x.txt" then Option.some (FileTimes.mk 0 0) else Option.none

/-- A repository with empty history: git log prints nothing, and
any show invocation would fail. -/
def envEmptyHistory : GitEnv :=
  GitEnv.mk (Except.ok "") (fun _ => Except.error "fatal: bad revision")

/-- A working tree with one file, used to observe that an empty history
run leaves the tree untouched. -/
def fsUntouched : FS := fun p =>
  if p = "/repo/x.txt" then Option.some (FileTimes.mk 7 7) else Option.none

/-- A single commit whose file list carries a duplicate path, an
interior blank line and a path with a space, followed by the trailing
blank produced by the final newline. -/
def envVerbatim : GitEnv :=
  GitEnv.mk (Except.ok "c\n")
    (fun _ =>
      Except.ok "Sun Jan 1 10:00:00 2023 +0000\n\na.txt\na.txt\n\nb c.txt\n")

/-- A history of a single commit with a bad date line and a nonempty
file list, for the atomicity witness. -/
def envBadOnly : GitEnv :=
  GitEnv.mk (Except.ok "b\n") (fun _ => Except.ok "garbage\nz.txt\n")

/-- A working tree holding z.txt, the file the failing commit of
envBadOnly lists; it must stay untouched. -/
def fsOnlyZ : FS := fun p =>
  if p = "/repo/z.txt" then Option.some (FileTimes.mk 0 0) else Option.none

/-- Splitting a character list on newlines always yields at least one
field. -/
theorem splitCharsNl_ne_nil (cs : List Char) : splitCharsNl cs ≠ [] := by
  induction cs with
  | nil => simp [splitCharsNl]
  | cons c cs ih =>
    by_cases h : c = newline
    · simp [splitCharsNl, h]
    · cases h2 : splitCharsNl cs with
      | nil => simp [splitCharsNl, h, h2]
      | cons l ls => simp [splitCharsNl, h, h2]

/-- The collection loop of getCommitFiles keeps exactly the nonempty
lines, in order. -/
theorem collectFiles_eq_filter (ls : List String) :
    collectFiles ls = List.filter (fun l => decide (l ≠ "")) ls := by
  induction ls with
  | nil => rfl
  | cons l ls ih =>
    by_cases h : l = ""
    · simp [collectFiles, h, ih]
    · simp [collectFiles, h, ih]

/-- How one file step changes the file system: only the joined path is
affected, and only if a file is there. -/
theorem processFile_fs (gitDir : String) (t : Time) (st : RunState) (f q : String) :
    (processFile gitDir t st f).fs q =
      if q = pathJoin gitDir f ∧ (st.fs q).isSome
      then Option.some (FileTimes.mk t t) else st.fs q := by
  cases hfs : st.fs (pathJoin gitDir f) with
  | none =>
    by_cases hq : q = pathJoin gitDir f
    · subst hq; simp [processFile, hfs]
    · simp [processFile, hfs, hq]
  | some v =>
    by_cases hq : q = pathJoin gitDir f
    · subst hq; simp [processFile, chtimes, hfs]
    · simp [processFile, chtimes, hfs, hq]

/-- A file step never creates or deletes a file. -/
theorem processFile_isSome (gitDir : String) (t : Time) (st : RunState) (f q : String) :
    ((processFile gitDir t st f).fs q).isSome = (st.fs q).isSome := by
  rw [processFile_fs]
  by_cases h : q = pathJoin gitDir f ∧ (st.fs q).isSome
  · obtain ⟨h1, h2⟩ := h
    subst h1
    simp [h2]
  · simp [h]

/-- A file step appends exactly one progress line, before any check on
the file system. -/
theorem processFile_progress (gitDir : String) (t : Time) (st : RunState) (f : String) :
    (processFile gitDir t st f).progress = st.progress ++ [(t, f)] := by
  by_cases h : (st.fs (pathJoin gitDir f)).isSome <;> simp [processFile, h]

/-- The file loop of a commit never creates or deletes a file. -/
theorem foldl_processFile_isSome (gitDir : String) (t : Time) (files : List String)
    (q : String) : ∀ st : RunState,
    ((List.foldl (processFile gitDir t) st files).fs q).isSome = (st.fs q).isSome := by
  induction files with
  | nil => intro st; rfl
  | cons f fsr ih =>
    intro st
    rw [List.foldl_cons, ih, processFile_isSome]

/-- What the file loop of one commit does to the file system at path q:
if a file is there and the commit lists q, both of its times become the
commit date; otherwise the path is untouched. -/
theorem foldl_processFile_fs (gitDir : String) (t : Time) (files : List String)
    (q : String) : ∀ st : RunState,
    (List.foldl (processFile gitDir t) st files).fs q =
      if (st.fs q).isSome ∧ q ∈ List.map (pathJoin gitDir) files
      then Option.some (FileTimes.mk t t) else st.fs q := by
  induction files with
  | nil => intro st; simp
  | cons f fsr ih =>
    intro st
    rw [List.foldl_cons, ih, processFile_isSome, processFile_fs]
    by_cases hs : (st.fs q).isSome
    · by_cases hf : q = pathJoin gitDir f
      · subst hf
        simp [hs]
      · simp [hs, hf]
    · simp [hs]

/-- The file loop of one commit appends one progress line per listed
file, in order, regardless of which files exist. -/
theorem foldl_processFile_progress (gitDir : String) (t : Time) (files : List String) :
    ∀ st : RunState,
    (List.foldl (processFile gitDir t) st files).progress =
      st.progress ++ List.map (fun f => (t, f)) files := by
  induction files with
  | nil => intro st; simp
  | cons f fsr ih =>
    intro st
    rw [List.foldl_cons, ih, processFile_progress]
    simp

/-- The commit loop skips an empty hash without touching anything. -/
theorem runCommits_cons_empty (parseDate : String → Option Time) (env : GitEnv)
    (gitDir : String) (h : String) (hs : List String) (st : RunState) (he : h = "") :
    runCommits parseDate env gitDir (h :: hs) st = runCommits parseDate env gitDir hs st := by
  subst he; rfl

/-- The commit loop stops with exit code 1, leaving the state as it
was, at a commit whose detail retrieval errs. -/
theorem runCommits_cons_err (parseDate : String → Option Time) (env : GitEnv)
    (gitDir : String) (h : String) (hs : List String) (st : RunState) (m : String)
    (he : h ≠ "") (herr : (getCommitFiles parseDate env h).err = Option.some m) :
    runCommits parseDate env gitDir (h :: hs) st = (st, 1) := by
  simp [runCommits, processCommit, he, herr]

/-- The commit loop runs the file loop of a successfully retrieved
commit and continues. -/
theorem runCommits_cons_ok (parseDate : String → Option Time) (env : GitEnv)
    (gitDir : String) (h : String) (hs : List String) (st : RunState)
    (he : h ≠ "") (herr : (getCommitFiles parseDate env h).err = Option.none) :
    runCommits parseDate env gitDir (h :: hs) st =
      runCommits parseDate env gitDir hs
        (List.foldl (processFile gitDir (getCommitFiles parseDate env h).date) st
          (getCommitFiles parseDate env h).files) := by
  simp [runCommits, processCommit, he, herr]

/-- Unfolding of writesFor at a successfully retrieved commit. -/
theorem writesFor_cons_ok (parseDate : String → Option Time) (env : GitEnv)
    (gitDir : String) (q h : String) (hs : List String)
    (he : h ≠ "") (herr : (getCommitFiles parseDate env h).err = Option.none) :
    writesFor parseDate env gitDir q (h :: hs) =
      (if q ∈ List.map (pathJoin gitDir) (getCommitFiles parseDate env h).files
       then [(getCommitFiles parseDate env h).date] else []) ++
        writesFor parseDate env gitDir q hs := by
  simp [writesFor, he, herr]

/-- The file system a run leaves at path q: the path is untouched
unless a file was there, in which case its times become the date of the
last write the run performs there, if any. -/
theorem runCommits_fs (parseDate : String → Option Time) (env : GitEnv) (gitDir : String)
    (q : String) (hs : List String) : ∀ st : RunState,
    (runCommits parseDate env gitDir hs st).1.fs q =
      if (st.fs q).isSome then
        match List.getLast? (writesFor parseDate env gitDir q hs) with
        | Option.some t => Option.some (FileTimes.mk t t)
        | Option.none => st.fs q
      else st.fs q := by
  induction hs with
  | nil =>
    intro st
    simp [runCommits, writesFor]
  | cons h hs ih =>
    intro st
    by_cases he : h = ""
    · rw [runCommits_cons_empty parseDate env gitDir h hs st he, ih]
      simp [writesFor, he]
    · cases herr : (getCommitFiles parseDate env h).err with
      | some m =>
        rw [runCommits_cons_err parseDate env gitDir h hs st m he herr]
        simp [writesFor, he, herr]
      | none =>
        rw [runCommits_cons_ok parseDate env gitDir h hs st he herr, ih,
          foldl_processFile_isSome, foldl_processFile_fs]
        by_cases hsome : (st.fs q).isSome
        · cases hl : List.getLast? (writesFor parseDate env gitDir q hs) with
          | some t =>
            have hne : writesFor parseDate env gitDir q hs ≠ [] := by
              intro hnil
              rw [hnil] at hl
              cases hl
            rw [writesFor_cons_ok parseDate env gitDir q h hs he herr,
              List.getLast?_append_of_ne_nil _ hne, hl]
            simp [hsome]
          | none =>
            have hnil : writesFor parseDate env gitDir q hs = [] :=
              List.getLast?_eq_none_iff.mp hl
            rw [writesFor_cons_ok parseDate env gitDir q h hs he herr, hnil,
              List.append_nil]
            by_cases hm : q ∈ List.map (pathJoin gitDir) (getCommitFiles parseDate env h).files
            · simp [hsome, hm]
            · simp [hsome, hm]
        · simp [hsome]

/-- A run never creates or deletes a file. -/
theorem runCommits_isSome (parseDate : String → Option Time) (env : GitEnv)
    (gitDir : String) (q : String) (hs : List String) (st : RunState) :
    ((runCommits parseDate env gitDir hs st).1.fs q).isSome = (st.fs q).isSome := by
  rw [runCommits_fs]
  by_cases hsome : (st.fs q).isSome
  · cases hl : List.getLast? (writesFor parseDate env gitDir q hs) with
    | some t => simp [hsome, hl]
    | none => simp [hsome, hl]
  · simp [hsome]

/-- The progress lines a run prints are appended to the state and,
beyond that, depend only on the commit history, never on the file
system. -/
theorem runCommits_progress (parseDate : String → Option Time) (env : GitEnv)
    (gitDir : String) (hs : List String) : ∀ st : RunState,
    (runCommits parseDate env gitDir hs st).1.progress =
      st.progress ++ progressOf parseDate env hs := by
  induction hs with
  | nil => intro st; simp [runCommits, progressOf]
  | cons h hs ih =>
    intro st
    by_cases he : h = ""
    · rw [runCommits_cons_empty parseDate env gitDir h hs st he, ih]
      simp [progressOf, he]
    · cases herr : (getCommitFiles parseDate env h).err with
      | some m =>
        rw [runCommits_cons_err parseDate env gitDir h hs st m he herr]
        simp [progressOf, he, herr]
      | none =>
        rw [runCommits_cons_ok parseDate env gitDir h hs st he herr, ih,
          foldl_processFile_progress]
        simp [progressOf, he, herr]

/-- The exit code of a run depends only on the commit history, never on
the state it starts from. -/
theorem runCommits_code_indep (parseDate : String → Option Time) (env : GitEnv)
    (gitDir : String) (hs : List String) : ∀ st1 st2 : RunState,
    (runCommits parseDate env gitDir hs st1).2 =
      (runCommits parseDate env gitDir hs st2).2 := by
  induction hs with
  | nil => intro st1 st2; rfl
  | cons h hs ih =>
    intro st1 st2
    by_cases he : h = ""
    · rw [runCommits_cons_empty parseDate env gitDir h hs st1 he,
        runCommits_cons_empty parseDate env gitDir h hs st2 he]
      exact ih st1 st2
    · cases herr : (getCommitFiles parseDate env h).err with
      | some m =>
        rw [runCommits_cons_err parseDate env gitDir h hs st1 m he herr,
          runCommits_cons_err parseDate env gitDir h hs st2 m he herr]
      | none =>
        rw [runCommits_cons_ok parseDate env gitDir h hs st1 he herr,
          runCommits_cons_ok parseDate env gitDir h hs st2 he herr]
        exact ih _ _

/-- Splitting a run at any point of the history: the second half runs
from the state the first half reaches, unless the first half already
aborted. -/
theorem runCommits_append (parseDate : String → Option Time) (env : GitEnv)
    (gitDir : String) (xs ys : List String) : ∀ st : RunState,
    runCommits parseDate env gitDir (xs ++ ys) st =
      if (runCommits parseDate env gitDir xs st).2 = 0
      then runCommits parseDate env gitDir ys (runCommits parseDate env gitDir xs st).1
      else runCommits parseDate env gitDir xs st := by
  induction xs with
  | nil => intro st; simp [runCommits]
  | cons h xs ih =>
    intro st
    by_cases he : h = ""
    · rw [List.cons_append, runCommits_cons_empty parseDate env gitDir h (xs ++ ys) st he,
        runCommits_cons_empty parseDate env gitDir h xs st he, ih]
    · cases herr : (getCommitFiles parseDate env h).err with
      | some m =>
        rw [List.cons_append, runCommits_cons_err parseDate env gitDir h (xs ++ ys) st m he herr,
          runCommits_cons_err parseDate env gitDir h xs st m he herr]
        simp
      | none =>
        rw [List.cons_append, runCommits_cons_ok parseDate env gitDir h (xs ++ ys) st he herr,
          runCommits_cons_ok parseDate env gitDir h xs st he herr, ih]

/-- A run over a history whose every nonempty commit retrieves
successfully ends with exit code 0. -/
theorem runCommits_code_zero (parseDate : String → Option Time) (env : GitEnv)
    (gitDir : String) (hs : List String)
    (hall : ∀ x ∈ hs, x ≠ "" → (getCommitFiles parseDate env x).err = Option.none) :
    ∀ st : RunState, (runCommits parseDate env gitDir hs st).2 = 0 := by
  induction hs with
  | nil => intro st; rfl
  | cons h hs ih =>
    intro st
    have hall2 : ∀ x ∈ hs, x ≠ "" → (getCommitFiles parseDate env x).err = Option.none :=
      fun x hx => hall x (List.mem_cons_of_mem h hx)
    by_cases he : h = ""
    · rw [runCommits_cons_empty parseDate env gitDir h hs st he]
      exact ih hall2 st
    · rw [runCommits_cons_ok parseDate env gitDir h hs st he
        (hall h (List.mem_cons_self h hs) he)]
      exact ih hall2 _

/-- Conversely, a run that ends with exit code 0 retrieved every
nonempty commit of its history successfully. -/
theorem runCommits_errs_of_code_zero (parseDate : String → Option Time) (env : GitEnv)
    (gitDir : String) (hs : List String) : ∀ st : RunState,
    (runCommits parseDate env gitDir hs st).2 = 0 →
    ∀ x ∈ hs, x ≠ "" → (getCommitFiles parseDate env x).err = Option.none := by
  induction hs with
  | nil => intro st _ x hx; cases hx
  | cons h hs ih =>
    intro st h0 x hx hne
    by_cases he : h = ""
    · rw [runCommits_cons_empty parseDate env gitDir h hs st he] at h0
      rcases List.mem_cons.mp hx with rfl | hx2
      · exact absurd he hne
      · exact ih st h0 x hx2 hne
    · cases herr : (getCommitFiles parseDate env h).err with
      | some m =>
        rw [runCommits_cons_err parseDate env gitDir h hs st m he herr] at h0
        cases h0
      | none =>
        rw [runCommits_cons_ok parseDate env gitDir h hs st he herr] at h0
        rcases List.mem_cons.mp hx with rfl | hx2
        · exact herr
        · exact ih _ h0 x hx2 hne

/-- A run over a history of only empty identifiers does nothing and
exits 0. -/
theorem runCommits_all_empty (parseDate : String → Option Time) (env : GitEnv)
    (gitDir : String) (hs : List String) (hempty : ∀ h ∈ hs, h = "") :
    ∀ st : RunState, runCommits parseDate env gitDir hs st = (st, 0) := by
  induction hs with
  | nil => intro st; rfl
  | cons h hs ih =>
    intro st
    rw [runCommits_cons_empty parseDate env gitDir h hs st (hempty h (List.mem_cons_self h hs))]
    exact ih (fun x hx => hempty x (List.mem_cons_of_mem h hx)) st

/-- When every nonempty commit retrieves successfully, the write dates
a run would put on path q are exactly the dates, in enumeration order,
of the commits listing q. -/
theorem writesFor_eq_relevantTimes (parseDate : String → Option Time) (env : GitEnv)
    (gitDir : String) (q : String) (hs : List String)
    (hall : ∀ x ∈ hs, x ≠ "" → (getCommitFiles parseDate env x).err = Option.none) :
    writesFor parseDate env gitDir q hs = relevantTimes parseDate env gitDir q hs := by
  induction hs with
  | nil => rfl
  | cons h hs ih =>
    have hall2 : ∀ x ∈ hs, x ≠ "" → (getCommitFiles parseDate env x).err = Option.none :=
      fun x hx => hall x (List.mem_cons_of_mem h hx)
    by_cases he : h = ""
    · simp [writesFor, relevantTimes, he, ih hall2, List.filter_cons]
    · have herr := hall h (List.mem_cons_self h hs) he
      by_cases hm : q ∈ commitPaths parseDate env gitDir h
      · have hm2 : ∃ a ∈ (getCommitFiles parseDate env h).files, pathJoin gitDir a = q := by
          simpa [commitPaths, List.mem_map] using hm
        simp [writesFor, relevantTimes, he, herr, hm, hm2, ih hall2, List.filter_cons]
      · have hm2 : ¬∃ a ∈ (getCommitFiles parseDate env h).files, pathJoin gitDir a = q := by
          simpa [commitPaths, List.mem_map] using hm
        simp [writesFor, relevantTimes, he, herr, hm, hm2, ih hall2, List.filter_cons]

/-- The file system a whole run leaves at path q, given the enumerated
history. -/
theorem logWalk_fs (parseDate : String → Option Time) (env : GitEnv) (gitDir : String)
    (fs0 : FS) (hashes : List String) (q : String)
    (henum : getCommits env = Except.ok hashes) :
    (logWalk parseDate env gitDir fs0).fs q =
      if (fs0 q).isSome then
        match List.getLast? (writesFor parseDate env gitDir q hashes) with
        | Option.some t => Option.some (FileTimes.mk t t)
        | Option.none => fs0 q
      else fs0 q := by
  simp only [logWalk, henum]
  rw [runCommits_fs]

/-- A whole run never creates or deletes a file. -/
theorem logWalk_isSome (parseDate : String → Option Time) (env : GitEnv) (gitDir : String)
    (fs0 : FS) (q : String) :
    ((logWalk parseDate env gitDir fs0).fs q).isSome = (fs0 q).isSome := by
  cases hlog : env.logResult with
  | error out => simp [logWalk, getCommits, hlog]
  | ok out =>
    simp only [logWalk, getCommits, hlog]
    exact runCommits_isSome parseDate env gitDir q (splitNl out) (RunState.mk fs0 [] [])

/-- C1: the claim says that after a complete run every existing tracked
file carries the timestamp of the most recent commit that touched it,
and in the two-commit scenario x.txt ends with the timestamp of the
later commit B, the enumeration being newest first.  The code does the
opposite: with the newest-first enumeration the older commit is
processed last and overwrites, so x.txt ends the run carrying the
EARLIER timestamp of commit A, not the claimed one of commit B, even
though the run exits 0 and y.txt (touched only by B) does get B.  This
theorem evaluates the embedding at exactly that scenario. -/
theorem c1_latest_commit_timestamp_bug :
    (logWalk demoParse envTwoCommits "/repo" fsBoth).exitCode = 0 ∧
    (logWalk demoParse envTwoCommits "/repo" fsBoth).fs "/repo/x.txt" =
      Option.some (FileTimes.mk 1672567200 1672567200) ∧
    (logWalk demoParse envTwoCommits "/repo" fsBoth).fs "/repo/x.txt" ≠
      Option.some (FileTimes.mk 1675252800 1675252800) ∧
    (logWalk demoParse envTwoCommits "/repo" fsBoth).fs "/repo/y.txt" =
      Option.some (FileTimes.mk 1675252800 1675252800) := by
  refine ⟨rfl, rfl, by decide, rfl⟩

/-- C2: for every file that exists on disk throughout the run, its
final access and modification times both equal the timestamp of the
last-processed commit record, in enumeration order, that lists the
file among its changed paths. -/
theorem c2_last_processed_commit_wins (parseDate : String → Option Time) (env : GitEnv)
    (gitDir : String) (fs0 : FS) (hashes : List String) (q : String) (t : Time)
    (henum : getCommits env = Except.ok hashes)
    (hok : (logWalk parseDate env gitDir fs0).exitCode = 0)
    (hex : (fs0 q).isSome)
    (hlast : List.getLast? (relevantTimes parseDate env gitDir q hashes) = Option.some t) :
    (logWalk parseDate env gitDir fs0).fs q = Option.some (FileTimes.mk t t) := by
  have hok2 : (runCommits parseDate env gitDir hashes (RunState.mk fs0 [] [])).2 = 0 := by
    simpa only [logWalk, henum] using hok
  have hall := runCommits_errs_of_code_zero parseDate env gitDir hashes
    (RunState.mk fs0 [] []) hok2
  rw [logWalk_fs parseDate env gitDir fs0 hashes q henum,
    writesFor_eq_relevantTimes parseDate env gitDir q hashes hall, hlast]
  simp [hex]

/-- Closed instance of the last-write-wins theorem: both commits list
x.txt, the later-processed (chronologically earlier) one wins. -/
theorem c2_witness :
    (logWalk demoParse envLastWrite "/repo" fsOnlyX).fs "/repo/x.txt" =
      Option.some (FileTimes.mk 1672567200 1672567200) :=
  c2_last_processed_commit_wins demoParse envLastWrite "/repo" fsOnlyX
    ["b", "a", ""] "/repo/x.txt" 1672567200 rfl (by decide) (by decide) (by decide)

/-- C3: a detail-retrieval output whose first line does not match the
fixed layout makes the run fail with the timestamp-parse error and exit
status 1, and the run performs no timestamp write for any path of that
commit or of any later commit: its write log is exactly the write log
of a run over the earlier commits alone. -/
theorem c3_parse_failure_aborts (parseDate : String → Option Time) (env : GitEnv)
    (gitDir : String) (fs0 : FS) (pre post : List String) (h out : String)
    (henum : getCommits env = Except.ok (pre ++ h :: post))
    (hne : h ≠ "")
    (hshow : env.showResult h = Except.ok out)
    (hbad : parseDate (List.headD (splitNl out) "") = Option.none)
    (hpre : ∀ x ∈ pre, x ≠ "" → (getCommitFiles parseDate env x).err = Option.none) :
    (logWalk parseDate env gitDir fs0).exitCode = 1 ∧
    (logWalk parseDate env gitDir fs0).writes =
      (runCommits parseDate env gitDir pre (RunState.mk fs0 [] [])).1.writes ∧
    (getCommitFiles parseDate env h).err =
      Option.some ("Could not understand this time stamp: " ++
        List.headD (splitNl out) "") := by
  have hbad2 : parseDate (((splitNl out).head?).getD "") = Option.none := by
    simpa using hbad
  have herr : (getCommitFiles parseDate env h).err =
      Option.some ("Could not understand this time stamp: " ++
        List.headD (splitNl out) "") := by
    simp [getCommitFiles, hshow, hbad2]
  have hrun : runCommits parseDate env gitDir (pre ++ h :: post) (RunState.mk fs0 [] []) =
      ((runCommits parseDate env gitDir pre (RunState.mk fs0 [] [])).1, 1) := by
    rw [runCommits_append,
      if_pos (runCommits_code_zero parseDate env gitDir pre hpre (RunState.mk fs0 [] [])),
      runCommits_cons_err parseDate env gitDir h post
        (runCommits parseDate env gitDir pre (RunState.mk fs0 [] [])).1 _ hne herr]
  simp only [logWalk, henum]
  rw [hrun]
  exact ⟨rfl, rfl, herr⟩

/-- Closed instance of the parse-failure theorem: in a three-commit
history whose middle commit has the date line garbage, the run exits 1,
only the first commit got its write, and z.txt, listed by the bad
commit, keeps its checkout times. -/
theorem c3_witness :
    (logWalk demoParse envBadMiddle "/repo" fsThree).exitCode = 1 ∧
    (logWalk demoParse envBadMiddle "/repo" fsThree).writes =
      (runCommits demoParse envBadMiddle "/repo" ["g"] (RunState.mk fsThree [] [])).1.writes ∧
    (getCommitFiles demoParse envBadMiddle "b").err =
      Option.some ("Could not understand this time stamp: " ++
        List.headD (splitNl "garbage\nz.txt\n") "") ∧
    (runCommits demoParse envBadMiddle "/repo" ["g"] (RunState.mk fsThree [] [])).1.writes =
      [("/repo/x.txt", 1672567200)] ∧
    (logWalk demoParse envBadMiddle "/repo" fsThree).fs "/repo/z.txt" =
      Option.some (FileTimes.mk 0 0) := by
  have h := c3_parse_failure_aborts demoParse envBadMiddle "/repo" fsThree ["g"] ["a", ""]
    "b" "garbage\nz.txt\n" rfl (by decide) rfl (by decide) (by decide)
  exact ⟨h.1, h.2.1, h.2.2, by decide, by decide⟩

/-- C4: a changed path whose joined absolute path has no file on disk
is skipped non-fatally: the run never creates a file there, and both
the exit status and the progress output are exactly what they would be
over any other file system, so the remaining paths and commits are
processed unchanged. -/
theorem c4_missing_path_skipped (parseDate : String → Option Time) (env : GitEnv)
    (gitDir : String) (fs0 fs1 : FS) (q : String)
    (hmiss : fs0 q = Option.none) :
    (logWalk parseDate env gitDir fs0).fs q = Option.none ∧
    (logWalk parseDate env gitDir fs0).exitCode =
      (logWalk parseDate env gitDir fs1).exitCode ∧
    (logWalk parseDate env gitDir fs0).progress =
      (logWalk parseDate env gitDir fs1).progress := by
  refine ⟨?_, ?_, ?_⟩
  · have h1 := logWalk_isSome parseDate env gitDir fs0 q
    rw [hmiss] at h1
    cases hx : (logWalk parseDate env gitDir fs0).fs q with
    | none => rfl
    | some v => rw [hx] at h1; cases h1
  · cases hlog : env.logResult with
    | error out => simp [logWalk, getCommits, hlog]
    | ok out =>
      simp only [logWalk, getCommits, hlog]
      exact runCommits_code_indep parseDate env gitDir (splitNl out)
        (RunState.mk fs0 [] []) (RunState.mk fs1 [] [])
  · cases hlog : env.logResult with
    | error out => simp [logWalk, getCommits, hlog]
    | ok out =>
      simp only [logWalk, getCommits, hlog]
      rw [runCommits_progress, runCommits_progress]

/-- Closed instance of the missing-file theorem: with y.txt deleted
before the run, the run does not create it, behaves as over the full
tree, and still exits 0. -/
theorem c4_witness :
    (logWalk demoParse envTwoCommits "/repo" fsMissingY).fs "/repo/y.txt" = Option.none ∧
    (logWalk demoParse envTwoCommits "/repo" fsMissingY).exitCode =
      (logWalk demoParse envTwoCommits "/repo" fsBoth).exitCode ∧
    (logWalk demoParse envTwoCommits "/repo" fsMissingY).progress =
      (logWalk demoParse envTwoCommits "/repo" fsBoth).progress ∧
    (logWalk demoParse envTwoCommits "/repo" fsMissingY).exitCode = 0 := by
  have h := c4_missing_path_skipped demoParse envTwoCommits "/repo" fsMissingY fsBoth
    "/repo/y.txt" (by decide)
  exact ⟨h.1, h.2.1, h.2.2, by decide⟩

/-- C5: when the enumeration yields only empty identifiers (as a
commitless repository does, its whole output being one empty line), the
run writes no timestamp, prints no progress line, leaves every file
untouched, exits 0, and its outcome does not depend on the detail
retriever at all, which is to say no retrieval is consulted for the
empty identifiers. -/
theorem c5_empty_history_noop (parseDate : String → Option Time) (env : GitEnv)
    (gitDir : String) (fs0 : FS) (hashes : List String)
    (henum : getCommits env = Except.ok hashes)
    (hempty : ∀ h ∈ hashes, h = "") :
    (logWalk parseDate env gitDir fs0).exitCode = 0 ∧
    (logWalk parseDate env gitDir fs0).writes = [] ∧
    (logWalk parseDate env gitDir fs0).progress = [] ∧
    (∀ q, (logWalk parseDate env gitDir fs0).fs q = fs0 q) ∧
    (∀ sr : String → Except String String,
      logWalk parseDate (GitEnv.mk env.logResult sr) gitDir fs0 =
        logWalk parseDate env gitDir fs0) := by
  have hrun := runCommits_all_empty parseDate env gitDir hashes hempty (RunState.mk fs0 [] [])
  refine ⟨?_, ?_, ?_, ?_, ?_⟩
  · simp only [logWalk, henum]
    rw [hrun]
  · simp only [logWalk, henum]
    rw [hrun]
  · simp only [logWalk, henum]
    rw [hrun]
  · intro q
    simp only [logWalk, henum]
    rw [hrun]
  · intro sr
    have henum2 : getCommits (GitEnv.mk env.logResult sr) = Except.ok hashes := henum
    have hrun2 := runCommits_all_empty parseDate (GitEnv.mk env.logResult sr) gitDir hashes
      hempty (RunState.mk fs0 [] [])
    simp only [logWalk, henum, henum2]
    rw [hrun, hrun2]

/-- Closed instance of the empty-history theorem at a repository whose
log output is the empty string. -/
theorem c5_witness :
    (logWalk demoParse envEmptyHistory "/repo" fsUntouched).exitCode = 0 ∧
    (logWalk demoParse envEmptyHistory "/repo" fsUntouched).writes = [] ∧
    (logWalk demoParse envEmptyHistory "/repo" fsUntouched).progress = [] ∧
    (logWalk demoParse envEmptyHistory "/repo" fsUntouched).fs "/repo/x.txt" =
      fsUntouched "/repo/x.txt" := by
  have h := c5_empty_history_noop demoParse envEmptyHistory "/repo" fsUntouched [""]
    rfl (by decide)
  exact ⟨h.1, h.2.1, h.2.2.1, h.2.2.2.1 "/repo/x.txt"⟩

/-- C6: the run is idempotent as a state transformer on file
timestamps: running the synchronizer a second time, over the same
history, on the file system the first run leaves behind, changes
nothing at any path. -/
theorem c6_second_run_changes_nothing (parseDate : String → Option Time) (env : GitEnv)
    (gitDir : String) (fs0 : FS) (q : String) :
    (logWalk parseDate env gitDir (logWalk parseDate env gitDir fs0).fs).fs q =
      (logWalk parseDate env gitDir fs0).fs q := by
  cases hlog : env.logResult with
  | error out => simp [logWalk, getCommits, hlog]
  | ok out =>
    have henum : getCommits env = Except.ok (splitNl out) := by
      simp [getCommits, hlog]
    have hfs0 := logWalk_fs parseDate env gitDir fs0 (splitNl out) q henum
    have hiso := logWalk_isSome parseDate env gitDir fs0 q
    rw [logWalk_fs parseDate env gitDir ((logWalk parseDate env gitDir fs0).fs)
      (splitNl out) q henum, hiso]
    by_cases hsome : (fs0 q).isSome
    · cases hl : List.getLast? (writesFor parseDate env gitDir q (splitNl out)) with
      | some t => simp [hsome, hl, hfs0]
      | none => simp [hsome, hl, hfs0]
    · simp [hsome, hfs0]

/-- C7: the path list a successful detail retrieval returns is exactly
the lines after the first, in order and verbatim, with every empty line
omitted and nothing else changed. -/
theorem c7_files_are_nonempty_tail_lines (parseDate : String → Option Time) (env : GitEnv)
    (hash out : String) (hok : env.showResult hash = Except.ok out) :
    (getCommitFiles parseDate env hash).files =
      List.filter (fun l => decide (l ≠ "")) (List.drop 1 (splitNl out)) := by
  cases hp : parseDate (((splitNl out).head?).getD "") with
  | some d => simp [getCommitFiles, hok, hp, collectFiles_eq_filter]
  | none => simp [getCommitFiles, hok, hp, collectFiles_eq_filter]

/-- Closed instance of the verbatim-path-list theorem, at an output
with a duplicate path, an interior blank line, a path containing a
space, and a trailing blank entry: the duplicate survives, every blank
is dropped. -/
theorem c7_witness :
    (getCommitFiles demoParse envVerbatim "c").files =
      List.filter (fun l => decide (l ≠ ""))
        (List.drop 1 (splitNl "Sun Jan 1 10:00:00 2023 +0000\n\na.txt\na.txt\n\nb c.txt\n")) ∧
    (getCommitFiles demoParse envVerbatim "c").files = ["a.txt", "a.txt", "b c.txt"] :=
  ⟨c7_files_are_nonempty_tail_lines demoParse envVerbatim "c"
      "Sun Jan 1 10:00:00 2023 +0000\n\na.txt\na.txt\n\nb c.txt\n" rfl,
    by decide⟩

/-- C8: the progress output of a run is one line per listed file of
every successfully retrieved commit, in order, computed without
consulting the file system, so a path about to be skipped as missing
still gets its progress line, printed before the existence check. -/
theorem c8_progress_line_for_every_path (parseDate : String → Option Time) (env : GitEnv)
    (gitDir : String) (fs0 : FS) (hashes : List String)
    (henum : getCommits env = Except.ok hashes) :
    (logWalk parseDate env gitDir fs0).progress = progressOf parseDate env hashes := by
  simp only [logWalk, henum]
  rw [runCommits_progress]
  simp

/-- Closed instance of the progress theorem: y.txt is missing from the
tree, yet its progress line is printed. -/
theorem c8_witness :
    (logWalk demoParse envTwoCommits "/repo" fsMissingY).progress =
      progressOf demoParse envTwoCommits ["b", "a", ""] ∧
    (logWalk demoParse envTwoCommits "/repo" fsMissingY).progress =
      [(1675252800, "x.txt"), (1675252800, "y.txt"), (1672567200, "x.txt")] ∧
    fsMissingY (pathJoin "/repo" "y.txt") = Option.none :=
  ⟨c8_progress_line_for_every_path demoParse envTwoCommits "/repo" fsMissingY
      ["b", "a", ""] rfl,
    by decide, by decide⟩

/-- C9: commit-level atomicity of failure: when detail retrieval for a
commit errs for any reason, the run exits before the file loop of that
commit, so its write log is exactly that of a run over the earlier
commits alone and no path of the failing commit or of a later one is
written, even though the retriever may have collected paths alongside
the error. -/
theorem c9_no_writes_from_failed_commit (parseDate : String → Option Time) (env : GitEnv)
    (gitDir : String) (fs0 : FS) (pre post : List String) (h : String)
    (henum : getCommits env = Except.ok (pre ++ h :: post))
    (hne : h ≠ "")
    (hpre : ∀ x ∈ pre, x ≠ "" → (getCommitFiles parseDate env x).err = Option.none)
    (herr : ((getCommitFiles parseDate env h).err).isSome) :
    (logWalk parseDate env gitDir fs0).exitCode = 1 ∧
    (logWalk parseDate env gitDir fs0).writes =
      (runCommits parseDate env gitDir pre (RunState.mk fs0 [] [])).1.writes := by
  obtain ⟨m, hm⟩ := Option.isSome_iff_exists.mp herr
  have hrun : runCommits parseDate env gitDir (pre ++ h :: post) (RunState.mk fs0 [] []) =
      ((runCommits parseDate env gitDir pre (RunState.mk fs0 [] [])).1, 1) := by
    rw [runCommits_append,
      if_pos (runCommits_code_zero parseDate env gitDir pre hpre (RunState.mk fs0 [] [])),
      runCommits_cons_err parseDate env gitDir h post
        (runCommits parseDate env gitDir pre (RunState.mk fs0 [] [])).1 m hne hm]
  simp only [logWalk, henum]
  rw [hrun]
  exact ⟨rfl, rfl⟩

/-- Closed instance of the atomicity theorem: the only commit fails to
parse, its collected path list is nonempty, and still nothing is
written. -/
theorem c9_witness :
    (logWalk demoParse envBadOnly "/repo" fsOnlyZ).exitCode = 1 ∧
    (logWalk demoParse envBadOnly "/repo" fsOnlyZ).writes =
      (runCommits demoParse envBadOnly "/repo" [] (RunState.mk fsOnlyZ [] [])).1.writes ∧
    (getCommitFiles demoParse envBadOnly "b").files = ["z.txt"] ∧
    ((getCommitFiles demoParse envBadOnly "b").err).isSome = true ∧
    (logWalk demoParse envBadOnly "/repo" fsOnlyZ).writes = [] := by
  have h := c9_no_writes_from_failed_commit demoParse envBadOnly "/repo" fsOnlyZ [] [""]
    "b" rfl (by decide) (by decide) (by decide)
  exact ⟨h.1, h.2, by decide, by decide, by decide⟩

/-- C10: splitting any subprocess output on newlines yields at least
one line, so the first-line read of the detail retriever is always in
bounds and both parsing functions are total. -/
theorem c10_split_never_empty (s : String) : splitNl s ≠ [] := by
  unfold splitNl
  intro hnil
  exact splitCharsNl_ne_nil s.data (List.map_eq_nil_iff.mp hnil)
